import Mathlib

/-!
# excel-l10n — verification of the markup round-trip pipeline

This file is a shallow embedding, in Lean 4, of the core of the
`excel-l10n` repository: the markup decomposition engine
(`htmlToXliffWithSkeleton`, `src/io/stream.ts` / `src/io/excel.ts`),
the XLIFF inline codec (`writeWithPh` and the `flatten` helper of
`parseXliffToUnits`, `src/exporter/xliff.ts`), the ICU / placeholder
protector (`encodePlaceholders`), the sentence segmenter
(`builtinRulesFor`, `segmentTextByRules`, `src/segmenter/index.ts`),
the merge engine (`mergeWorkbook`'s segment loop and
`composeHtmlFromSkeleton`, `src/merger/index.ts`) and the column
coordinate conversions (`src/utils/index.ts`).

Conventions of the embedding:

* JavaScript strings are represented as `List Char`; `str` converts a
  Lean string literal.  JavaScript regular expressions used by the
  sources are fixed concrete patterns; each one is embedded as an
  executable matcher whose semantics (including greediness, laziness
  and first-match-wins scanning) follows the concrete pattern.
* Recursions that are not structural in the source (scanning loops
  that skip ahead by a matched length) are given an explicit fuel
  argument so that all definitions compute by kernel reduction; the
  fuel passed at the top level always dominates the input length, so
  it never runs out on the inputs of interest.
* The XML serializer (`xmlbuilder2`) and XML parser (`fast-xml-parser`)
  are external libraries: a text or attribute value written to an
  element comes back unchanged (escape on write, unescape on parse).
  The wire is therefore modelled by the element tree `XNode` that
  `writeWithPh` builds and the `flatten` of `parseXliffToUnits` reads.
* The HTML parser (`node-html-parser`, also an external library) is
  lenient and never throws; concrete parse trees (`HNode`) used in
  theorems model its documented output on the given fragments
  (unterminated elements are closed at end of input).
-/

namespace ExcelL10n

set_option maxRecDepth 100000

/-- Characters of a string literal. -/
def str (s : String) : List Char := s.data

/-- Left brace character (written by code point to keep literals plain). -/
def lbrace : Char := Char.ofNat 123

/-- Right brace character. -/
def rbrace : Char := Char.ofNat 125

/-- JavaScript whitespace (`\s`, `String.prototype.trim`): ASCII blanks,
line terminators, NBSP and the BOM.  Only these occur in the texts the
claims exercise. -/
def jsIsWs (c : Char) : Bool :=
  c = ' ' ∨ c = '\t' ∨ c = '\n' ∨ c = '\r' ∨
  c = Char.ofNat 11 ∨ c = Char.ofNat 12 ∨ c = Char.ofNat 160 ∨ c = Char.ofNat 65279

/-- JS `String.prototype.trim`. -/
def jsTrim (s : List Char) : List Char :=
  ((s.dropWhile jsIsWs).reverse.dropWhile jsIsWs).reverse

/-- JS `String.prototype.slice(start, stop)` for `start ≤ stop`. -/
def jsSlice (s : List Char) (start stop : Nat) : List Char :=
  (s.drop start).take (stop - start)

/-- Index of the first occurrence of `needle` in `hay` (`0` when `needle`
is empty), or `none`: the core of JS `String.prototype.indexOf`. -/
def firstOcc (needle : List Char) : List Char → Option Nat
  | [] => if needle = [] then some 0 else none
  | c :: cs =>
    if needle.isPrefixOf (c :: cs) then some 0
    else (firstOcc needle cs).map (· + 1)

/-- JS `hay.indexOf(needle, from)` (returning `none` for `-1`). -/
def indexOfFrom (hay needle : List Char) (start : Nat) : Option Nat :=
  (firstOcc needle (hay.drop start)).map (· + start)

/-- JS `haystack.split(needle).join(replacement)` — the `rAll` helper of
the merger (replace every occurrence).  Fueled; `fuel ≥ hay.length`
always suffices. -/
def rAllAux (needle repl : List Char) : Nat → List Char → List Char
  | 0, hay => hay
  | _ + 1, [] => []
  | fuel + 1, c :: cs =>
    if needle ≠ [] ∧ needle.isPrefixOf (c :: cs) then
      repl ++ rAllAux needle repl fuel ((c :: cs).drop needle.length)
    else
      c :: rAllAux needle repl fuel cs

/-- Source `rAll` from `src/merger/index.ts`. -/
def rAll (hay needle repl : List Char) : List Char :=
  rAllAux needle repl hay.length hay

/-- Decimal digits of a natural number (JS template `${n}`). -/
def natDigitsAux : Nat → Nat → List Char → List Char
  | 0, _, acc => acc
  | fuel + 1, n, acc =>
    let d := Char.ofNat (48 + n % 10)
    if n < 10 then d :: acc else natDigitsAux fuel (n / 10) (d :: acc)

/-- Decimal rendering of a natural number. -/
def natDigits (n : Nat) : List Char := natDigitsAux (n + 1) n []

/-- ASCII lower-casing, as `String.prototype.toLowerCase` on tag names. -/
def toLowerChar (c : Char) : Char :=
  if 65 ≤ c.toNat ∧ c.toNat ≤ 90 then Char.ofNat (c.toNat + 32) else c

/-- Lower-case a tag name. -/
def listToLower (s : List Char) : List Char := s.map toLowerChar

/-!
## Column coordinate conversions (`src/utils/index.ts`)

The source works on UTF-16 code units (`charCodeAt` / `fromCharCode`),
so the embedding represents column letter strings by their lists of
character codes.
-/

/-- JS `String.prototype.toUpperCase` on a letter code. -/
def upperCode (c : Nat) : Nat := if 97 ≤ c ∧ c ≤ 122 then c - 32 else c

/-- A code is an ASCII letter (either case). -/
def isLetterCode (c : Nat) : Bool := (65 ≤ c ∧ c ≤ 90) ∨ (97 ≤ c ∧ c ≤ 122)

/-- Source `colIndexToLetter` of `src/utils/index.ts`: the loop
`while (n > 0) { m = (n-1) % 26; s = chr(65+m) + s; n = (n-1) / 26 }`,
with fuel (the fuel `n` given at top level dominates the loop count). -/
def colIndexToLetterAux : Nat → Nat → List Nat
  | 0, _ => []
  | _ + 1, 0 => []
  | fuel + 1, n + 1 => colIndexToLetterAux fuel (n / 26) ++ [65 + n % 26]

/-- Source `colIndexToLetter(n)` as a list of letter codes. -/
def colIndexToLetter (n : Nat) : List Nat := colIndexToLetterAux n n

/-- Source `colLetterToIndex` of `src/utils/index.ts`: the loop
`for ch of s.toUpperCase() { if (ch < 'A' || ch > 'Z') break; n = n*26 + (code-64) }`. -/
def colLetterToIndexAux (n : Nat) : List Nat → Nat
  | [] => n
  | c :: cs =>
    let u := upperCode c
    if u < 65 ∨ 90 < u then n else colLetterToIndexAux (n * 26 + (u - 64)) cs

/-- Source `colLetterToIndex(s)`. -/
def colLetterToIndex (s : List Nat) : Nat := colLetterToIndexAux 0 s

/-!
## Segmentation engine (`src/segmenter/index.ts`)
-/

/-- A segment as in `src/types.ts` (`id`, `source`, optional `target`,
optional `start`/`end` offsets, optional `meta.htmlSkeleton`). -/
structure Seg where
  id : List Char
  source : List Char
  target : Option (List Char)
  start : Option Nat
  stop : Option Nat
  metaSkeleton : Option (List Char)
  deriving DecidableEq, Repr

/-- An SRX-style rule: break decision plus before/after context tests
(the source stores the two compiled regexes). -/
structure SrxRule where
  brk : Bool
  before : List Char → Bool
  after : List Char → Bool

/-- Matcher for the built-in before-break regex
`[.!?;]+\)?\”?\»?\s*$` of `builtinRulesFor`: the text ends in one or
more sentence punctuation marks, optionally followed by a closing
parenthesis, closing double quote, closing guillemet and trailing
whitespace.  The optional characters belong to pairwise disjoint
classes, so stripping them greedily from the end decides the regex. -/
def builtinBefore (left : List Char) : Bool :=
  let r0 := left.reverse.dropWhile jsIsWs
  let r1 := match r0 with | '»' :: t => t | _ => r0
  let r2 := match r1 with | '”' :: t => t | _ => r1
  let r3 := match r2 with | ')' :: t => t | _ => r2
  match r3 with
  | c :: _ => c = '.' ∨ c = '!' ∨ c = '?' ∨ c = ';'
  | [] => false

/-- Matcher for the built-in after-break regex `^\s*\(?\“?\«?[A-Z0-9]`
of `builtinRulesFor`: optional whitespace and opening punctuation, then
an uppercase letter or digit. -/
def builtinAfter (right : List Char) : Bool :=
  let r0 := right.dropWhile jsIsWs
  let r1 := match r0 with | '(' :: t => t | _ => r0
  let r2 := match r1 with | '“' :: t => t | _ => r1
  let r3 := match r2 with | '«' :: t => t | _ => r2
  match r3 with
  | c :: _ => (65 ≤ c.toNat ∧ c.toNat ≤ 90) ∨ (48 ≤ c.toNat ∧ c.toNat ≤ 57)
  | [] => false

/-- Matcher for the abbreviation regex
`(Mr|Mrs|Ms|Dr|Prof|Sr|Jr|vs|etc)\.$` with flag `i`: the text ends,
case-insensitively, in one of the listed abbreviations followed by a
period. -/
def builtinAbbrevBefore (left : List Char) : Bool :=
  let low := left.map toLowerChar
  [str "mr.", str "mrs.", str "ms.", str "dr.", str "prof.",
   str "sr.", str "jr.", str "vs.", str "etc."].any
    (fun a => a.reverse.isPrefixOf low.reverse)

/-- Source `builtinRulesFor` of `src/segmenter/index.ts`: a break rule for
sentence punctuation followed by an uppercase/digit context, then a
no-break rule for common abbreviations.  The `lang` argument is ignored
by the source as well. -/
def builtinRulesFor (_lang : List Char) : List SrxRule :=
  [⟨true, builtinBefore, builtinAfter⟩,
   ⟨false, builtinAbbrevBefore, builtinAfter⟩]

/-- First rule whose before- and after-contexts both match decides
(`segmentTextByRules` rule scan). -/
def boundaryDecision (rules : List SrxRule) (left right : List Char) : Option Bool :=
  (rules.find? (fun r => r.before left && r.after right)).map (·.brk)

/-- Candidate cut positions of `segmentTextByRules`: every boundary
`1 ≤ i < text.length` where the first matching rule says break. -/
def cutPositions (text : List Char) (rules : List SrxRule) : List Nat :=
  (List.range' 1 (text.length - 1)).filter
    (fun i => boundaryDecision rules (text.take i) (text.drop i) = some true)

/-- Segment construction loop of `segmentTextByRules`: slices between
consecutive cut positions (and the end of text), trimmed; empty slices
are dropped and do not consume an id index. -/
def buildSegments (text : List Char) : List Nat → Nat → Nat → List Seg
  | [], _, _ => []
  | pos :: rest, previous, idx =>
    let s := jsTrim (jsSlice text previous pos)
    if s ≠ [] then
      ⟨'s' :: natDigits idx, s, none, some previous, some pos, none⟩
        :: buildSegments text rest pos (idx + 1)
    else
      buildSegments text rest pos idx

/-- Source `segmentTextByRules` of `src/segmenter/index.ts`. -/
def segmentTextByRules (text : List Char) (rules : List SrxRule) : List Seg :=
  if text = [] then [⟨[], [], none, none, none, none⟩]
  else
    let segs := buildSegments text (cutPositions text rules ++ [text.length]) 0 0
    if segs = [] then [⟨str "s0", text, none, some 0, some text.length, none⟩]
    else segs

/-!
## Merge engine (`src/merger/index.ts`)
-/

/-- The merge-fallback policy (`global.mergeFallback`). -/
inductive MergeFallback where
  | source
  | empty
  deriving DecidableEq, Repr

/-- A validation finding (`src/validator/index.ts`): severity level and
message. -/
structure Finding where
  level : List Char
  message : List Char
  deriving DecidableEq, Repr

/-- Inline-map entry: the verbatim open and close tags of a span. -/
structure InlineEntry where
  openTag : List Char
  closeTag : List Char
  deriving DecidableEq, Repr

/-- Inline map keyed by span id (`htmlInlineMap`). -/
def InlineMap := List (List Char × InlineEntry)

/-- Per-segment placeholder map (`placeholderMap[seg.id]`): token id to
original literal. -/
def PhMap := List Char → List (List Char × List Char)

/-- The empty placeholder map (unit has no `ph` note). -/
def noPh : PhMap := fun _ => []

/-- The `chosen` expression of the merge segment loop: target when
present and non-empty, otherwise the merge-fallback
(`seg.source` for policy `source` — the default — or the empty string
for policy `empty`). -/
def chosenText (policy : MergeFallback) (s : Seg) : List Char :=
  match s.target with
  | some t =>
    if t ≠ [] then t
    else match policy with | .source => s.source | .empty => []
  | none => match policy with | .source => s.source | .empty => []

/-- Placeholder restoration inside the merge loop: for every entry of
the segment's placeholder map, replace `[[ph:id]]` by the original. -/
def phApply (ph : PhMap) (s : Seg) (body : List Char) : List Char :=
  (ph s.id).foldl
    (fun acc e => rAll acc (str "[[ph:" ++ e.1 ++ str "]]") e.2) body

/-- Replace every `[[htmltxt:N]]` token of a legacy per-segment skeleton
by the expanded segment body (the `skeleton.replace(tokenRegex, expanded)`
step).  Fueled scanning; `fuel ≥ skeleton.length` suffices. -/
def replaceHtmltxtAux (expanded : List Char) : Nat → List Char → List Char
  | 0, cs => cs
  | _ + 1, [] => []
  | fuel + 1, c :: cs =>
    let tok := str "[[htmltxt:"
    if tok.isPrefixOf (c :: cs) then
      let rest := (c :: cs).drop tok.length
      let ds := rest.takeWhile (fun d => 48 ≤ d.toNat ∧ d.toNat ≤ 57)
      if ds ≠ [] ∧ (str "]]").isPrefixOf (rest.drop ds.length) then
        expanded ++ replaceHtmltxtAux expanded fuel ((rest.drop ds.length).drop 2)
      else c :: replaceHtmltxtAux expanded fuel cs
    else c :: replaceHtmltxtAux expanded fuel cs

/-- Source `skeleton.replace(/\[\[htmltxt:\d+\]\]/g, expanded)`. -/
def replaceHtmltxt (skeleton expanded : List Char) : List Char :=
  replaceHtmltxtAux expanded skeleton.length skeleton

/-- Expand `[[io:n]]` / `[[ic:n]]` placeholders using an inline map
(used both for legacy per-segment skeletons and for the
inline-map-without-skeleton fallback of `mergeWorkbook`). -/
def expandInline (im : InlineMap) (body : List Char) : List Char :=
  im.foldl
    (fun acc e =>
      rAll (rAll acc (str "[[io:" ++ e.1 ++ str "]]") e.2.openTag)
        (str "[[ic:" ++ e.1 ++ str "]]") e.2.closeTag) body

/-- Step 2 of the merge segment loop (backward compatibility): when the
segment carries a legacy `meta.htmlSkeleton`, expand `[[io]]`/`[[ic]]`
markers from the unit inline map and inject the body into every
`[[htmltxt:N]]` slot of that skeleton. -/
def legacyBody (im : Option InlineMap) (skel : Option (List Char))
    (body : List Char) : List Char :=
  match skel with
  | some sk =>
    let expanded := match im with | some m => expandInline m body | none => body
    replaceHtmltxt sk expanded
  | none => body

/-- The per-segment loop of `mergeWorkbook`
(`src/merger/index.ts`, the `for (let i = 0; ...)` over `tu.segments`):
resolve the effective text, restore placeholders, optionally inject a
legacy segment skeleton, recover the gap from the unit source starting
at the last consumed position, and finally append the trailing source
text.  Returns the `rebuiltSegments` list. -/
def mergeSegLoop (src : List Char) (policy : MergeFallback) (ph : PhMap)
    (im : Option InlineMap) : List Seg → Nat → List (List Char)
  | [], pos => [src.drop pos]
  | seg :: rest, pos =>
    let chosen := chosenText policy seg
    let found := if seg.source ≠ [] then indexOfFrom src seg.source pos else none
    let gapPos : List Char × Nat :=
      match found with
      | some idx =>
        let between := jsSlice src pos idx
        (if between ≠ [] then between else if 0 < pos then [' '] else [],
         idx + seg.source.length)
      | none => ([], pos)
    let body := legacyBody im seg.metaSkeleton (phApply ph seg chosen)
    (gapPos.1 ++ body) :: mergeSegLoop src policy ph im rest gapPos.2

/-!
## Skeleton composition (`composeHtmlFromSkeleton`, `src/merger/index.ts`)
-/

/-- A token of `tokenizeSkeleton`. -/
inductive SkelToken where
  | tag (value : List Char)
  | text (value : List Char)
  | io (id : List Char)
  | ic (id : List Char)
  | htmltxt (id : List Char)
  deriving DecidableEq, Repr

/-- Try to match, at the head of the input, one of the patterns of the
tokenizer regex `\[\[(?:htmltxt|io|ic):\d+\]\]|<[^>]+>`.  Returns the
token and the rest of the input. -/
def matchSkelTokenAt (cs : List Char) : Option (SkelToken × List Char) :=
  let tryMarker := fun (kind : List Char) (mk : List Char → SkelToken) =>
    let tok := str "[[" ++ kind ++ str ":"
    if tok.isPrefixOf cs then
      let rest := cs.drop tok.length
      let ds := rest.takeWhile (fun d => 48 ≤ d.toNat ∧ d.toNat ≤ 57)
      if ds ≠ [] ∧ (str "]]").isPrefixOf (rest.drop ds.length) then
        some (mk ds, (rest.drop ds.length).drop 2)
      else none
    else none
  match tryMarker (str "htmltxt") SkelToken.htmltxt with
  | some r => some r
  | none =>
  match tryMarker (str "io") SkelToken.io with
  | some r => some r
  | none =>
  match tryMarker (str "ic") SkelToken.ic with
  | some r => some r
  | none =>
  match cs with
  | '<' :: rest =>
    let inner := rest.takeWhile (· ≠ '>')
    if inner ≠ [] ∧ (rest.drop inner.length).take 1 = ['>'] then
      some (SkelToken.tag ('<' :: inner ++ ['>']), (rest.drop inner.length).drop 1)
    else none
  | _ => none

/-- Source `tokenizeSkeleton` of `src/merger/index.ts`: scan the skeleton,
emitting marker/tag tokens and collecting the text between matches. -/
def tokenizeSkeletonAux : Nat → List Char → List Char → List SkelToken
  | 0, pending, cs => if pending ++ cs ≠ [] then [.text (pending ++ cs)] else []
  | _ + 1, pending, [] => if pending ≠ [] then [.text pending] else []
  | fuel + 1, pending, c :: cs =>
    match matchSkelTokenAt (c :: cs) with
    | some (tok, rest) =>
      (if pending ≠ [] then [SkelToken.text pending] else []) ++
        tok :: tokenizeSkeletonAux fuel [] rest
    | none => tokenizeSkeletonAux fuel (pending ++ [c]) cs

/-- Source `tokenizeSkeleton`. -/
def tokenizeSkeleton (skeleton : List Char) : List SkelToken :=
  tokenizeSkeletonAux skeleton.length [] skeleton

/-- A token of `tokenizeTranslation` (`[[io:n]]` / `[[ic:n]]`
placeholders versus plain text). -/
inductive TransToken where
  | text (value : List Char)
  | phio (id : List Char)
  | phic (id : List Char)
  deriving DecidableEq, Repr

/-- Try to match an `[[io:n]]` or `[[ic:n]]` placeholder at the head. -/
def matchTransTokenAt (cs : List Char) : Option (TransToken × List Char) :=
  let tryMarker := fun (kind : List Char) (mk : List Char → TransToken) =>
    let tok := str "[[" ++ kind ++ str ":"
    if tok.isPrefixOf cs then
      let rest := cs.drop tok.length
      let ds := rest.takeWhile (fun d => 48 ≤ d.toNat ∧ d.toNat ≤ 57)
      if ds ≠ [] ∧ (str "]]").isPrefixOf (rest.drop ds.length) then
        some (mk ds, (rest.drop ds.length).drop 2)
      else none
    else none
  match tryMarker (str "io") TransToken.phio with
  | some r => some r
  | none => tryMarker (str "ic") TransToken.phic

/-- Source `tokenizeTranslation` of `src/merger/index.ts`. -/
def tokenizeTranslationAux : Nat → List Char → List Char → List TransToken
  | 0, pending, cs => if pending ++ cs ≠ [] then [.text (pending ++ cs)] else []
  | _ + 1, pending, [] => if pending ≠ [] then [.text pending] else []
  | fuel + 1, pending, c :: cs =>
    match matchTransTokenAt (c :: cs) with
    | some (tok, rest) =>
      (if pending ≠ [] then [TransToken.text pending] else []) ++
        tok :: tokenizeTranslationAux fuel [] rest
    | none => tokenizeTranslationAux fuel (pending ++ [c]) cs

/-- Source `tokenizeTranslation`. -/
def tokenizeTranslation (text : List Char) : List TransToken :=
  tokenizeTranslationAux text.length [] text

/-- Pop the leading run of text tokens (the inner `while` of the
`htmltxt` case of `composeHtmlFromSkeleton`). -/
def takeTextChunk : List TransToken → List Char × List TransToken
  | TransToken.text v :: rest =>
    let r := takeTextChunk rest
    (v ++ r.1, r.2)
  | ts => ([], ts)

/-- The skeleton walk of `composeHtmlFromSkeleton`: tag and text tokens
pass through, `io`/`ic` markers are replaced from the inline map (and
consume a matching placeholder from the translation stream), `htmltxt`
markers consume the next run of translation text tokens. -/
def composeWalk (im : Option InlineMap) :
    List SkelToken → List TransToken → List Char
  | [], tx =>
    -- residual loop: append any remaining text tokens
    (tx.filterMap (fun t => match t with | .text v => some v | _ => none)).foldl
      (· ++ ·) []
  | SkelToken.tag v :: rest, tx => v ++ composeWalk im rest tx
  | SkelToken.text v :: rest, tx => v ++ composeWalk im rest tx
  | SkelToken.io n :: rest, tx =>
    let entry := match im with | some m => m.lookup n | none => none
    let repl := match entry with | some e => e.openTag | none => []
    let tx' := match tx with
      | TransToken.phio m :: t => if m = n then t else tx
      | _ => tx
    repl ++ composeWalk im rest tx'
  | SkelToken.ic n :: rest, tx =>
    let entry := match im with | some m => m.lookup n | none => none
    let repl := match entry with | some e => e.closeTag | none => []
    let tx' := match tx with
      | TransToken.phic m :: t => if m = n then t else tx
      | _ => tx
    repl ++ composeWalk im rest tx'
  | SkelToken.htmltxt _ :: rest, tx =>
    let chunk := takeTextChunk tx
    chunk.1 ++ composeWalk im rest chunk.2

/-- Source `composeHtmlFromSkeleton` of `src/merger/index.ts`. -/
def composeHtmlFromSkeleton (translated skeleton : List Char)
    (im : Option InlineMap) : List Char :=
  composeWalk im (tokenizeSkeleton skeleton) (tokenizeTranslation translated)

/-- Result of merging one translation unit: the final cell text and the
findings the merge surfaced.  The merge loop of `mergeWorkbook`
(`src/merger/index.ts`) records no findings anywhere — there is no
finding channel in the merger — so the findings component is always
empty. -/
structure MergeResult where
  text : List Char
  findings : List Finding
  deriving DecidableEq, Repr

/-- Unit-level merge (`mergeWorkbook` body for one unit and one target
column): run the segment loop from position 0, join the rebuilt
segments, then apply the unit skeleton via `composeHtmlFromSkeleton`
when present, or expand the inline map globally when only the map is
present. -/
def mergeUnitR (src : List Char) (policy : MergeFallback) (ph : PhMap)
    (im : Option InlineMap) (uSkeleton : Option (List Char))
    (segs : List Seg) : MergeResult :=
  let rebuilt :=
    if segs ≠ [] then mergeSegLoop src policy ph im segs 0
    else [src]
  let finalText := rebuilt.foldl (· ++ ·) []
  let finalText :=
    match uSkeleton with
    | some sk => composeHtmlFromSkeleton finalText sk im
    | none =>
      match im with
      | some m => expandInline m finalText
      | none => finalText
  ⟨finalText, []⟩

/-!
## XLIFF wire codec (`writeWithPh` of `src/exporter/xliff.ts`, `flatten`
of `parseXliffToUnits`)

`writeWithPh` turns a segment text into XML elements under `<source>` /
`<target>`; `parseXliffToUnits` reads them back with `preserveOrder`
and flattens them to a string.  The XML write/parse round trip itself
(escaping on write, unescaping on parse, done by the external
`xmlbuilder2` / `fast-xml-parser` libraries) is the identity on element
names, attribute values and text, so the wire is modelled by the
element tree `XNode`.
-/

/-- An XML element-content node as written by `writeWithPh` and seen by
the parser with `preserveOrder: true`. -/
inductive XNode where
  | xtext (s : List Char)
  | xelem (tag : List Char) (attrs : List (List Char × List Char)) (children : List XNode)

/-- A `\w` word character (`[A-Za-z0-9_]`). -/
def isWordChar (c : Char) : Bool :=
  (65 ≤ c.toNat ∧ c.toNat ≤ 90) ∨ (97 ≤ c.toNat ∧ c.toNat ≤ 122) ∨
  (48 ≤ c.toNat ∧ c.toNat ≤ 57) ∨ c = '_'

/-- Source `parseAttributes` of `src/exporter/xliff.ts`: global scan of the
regex `(\w+)="([^"]*)"`; on a failed attempt the scan advances one
character. -/
def parseAttributesAux : Nat → List Char → List (List Char × List Char)
  | 0, _ => []
  | _ + 1, [] => []
  | fuel + 1, c :: cs =>
    let w := (c :: cs).takeWhile isWordChar
    let rest := (c :: cs).drop w.length
    if w ≠ [] ∧ (str "=\"").isPrefixOf rest then
      let v := (rest.drop 2).takeWhile (· ≠ '"')
      let rest2 := (rest.drop 2).drop v.length
      if rest2.take 1 = ['"'] then
        (w, v) :: parseAttributesAux fuel (rest2.drop 1)
      else parseAttributesAux fuel cs
    else parseAttributesAux fuel cs

/-- Source `parseAttributes`. -/
def parseAttributes (s : List Char) : List (List Char × List Char) :=
  parseAttributesAux s.length s

/-- The inline element names recognised by `writeWithPh`
(`pc|g|sc|ec|bx|ex|bpt|ept`), in the alternation's order. -/
def wireTagNames : List (List Char) :=
  [str "pc", str "g", str "sc", str "ec", str "bx", str "ex", str "bpt", str "ept"]

/-- Try to match `<(pc|g|sc|ec|bx|ex|bpt|ept)(\s[^>]*)?>` at the head of
the input.  Returns the tag name, the raw attribute string (including
its leading whitespace) and the input after the closing `>`. -/
def matchWireTagAt (cs : List Char) : Option (List Char × List Char × List Char) :=
  match cs with
  | '<' :: rest =>
    (wireTagNames.filterMap (fun tag =>
      if tag.isPrefixOf rest then
        let after := rest.drop tag.length
        match after with
        | '>' :: rest2 => some (tag, ([] : List Char), rest2)
        | c :: _ =>
          if jsIsWs c then
            let attrs := after.takeWhile (· ≠ '>')
            if (after.drop attrs.length).take 1 = ['>'] then
              some (tag, attrs, (after.drop attrs.length).drop 1)
            else none
          else none
        | [] => none
      else none)).head?
  | _ => none

/-- Find the earliest wire-tag match in the input (the
`parts.substring(i).match(...)` step), returning the text before the
match as well. -/
def findWireTagAux : Nat → List Char → List Char →
    Option (List Char × List Char × List Char × List Char)
  | 0, _, _ => none
  | _ + 1, _, [] => none
  | fuel + 1, pre, c :: cs =>
    match matchWireTagAt (c :: cs) with
    | some (tag, attrs, rest) => some (pre.reverse, tag, attrs, rest)
    | none => findWireTagAux fuel (c :: pre) cs

/-- Earliest wire-tag match with preceding text. -/
def findWireTag (cs : List Char) :
    Option (List Char × List Char × List Char × List Char) :=
  findWireTagAux (cs.length + 1) [] cs

/-- Test whether `writeWithPh`'s input contains inline XLIFF elements:
`/<(pc|g|sc|ec|bx|ex|bpt|ept)\s/` matches: an element name followed by
whitespace. -/
def hasInlineXliffAux : Nat → List Char → Bool
  | 0, _ => false
  | _ + 1, [] => false
  | fuel + 1, c :: cs =>
    (decide (c = '<') && wireTagNames.any (fun tag =>
      tag.isPrefixOf cs && (match cs.drop tag.length with
        | d :: _ => jsIsWs d
        | [] => false))) ||
    hasInlineXliffAux fuel cs

/-- Test for inline XLIFF elements. -/
def hasInlineXliff (cs : List Char) : Bool := hasInlineXliffAux cs.length cs

/-- The nesting-aware closing-tag search of `writeWithPh`'s inline
branch: starting at relative position `j` with the given `depth`, find
the index of the terminal `</tag>`, counting nested `<tag` openers.
Mirrors the `while (j < parts.length && depth > 0)` loop. -/
def findCloseAux (parts tag : List Char) : Nat → Nat → Nat → Option Nat
  | 0, _, _ => none
  | fuel + 1, j, depth =>
    if j < parts.length ∧ 0 < depth then
      let openPat := '<' :: tag
      let closePat := '<' :: '/' :: tag ++ ['>']
      match indexOfFrom parts closePat j with
      | none => none
      | some nextClose =>
        match indexOfFrom parts openPat j with
        | some nextOpen =>
          if nextOpen < nextClose then
            findCloseAux parts tag fuel (nextOpen + tag.length + 1) (depth + 1)
          else if depth = 1 then some nextClose
          else findCloseAux parts tag fuel (nextClose + closePat.length) (depth - 1)
        | none =>
          if depth = 1 then some nextClose
          else findCloseAux parts tag fuel (nextClose + closePat.length) (depth - 1)
    else none

/-- Index of the terminal closing tag for an element opened just before
`rest`, or `none` when unclosed. -/
def findClose (tag rest : List Char) : Option Nat :=
  findCloseAux rest tag (rest.length + 1) 0 1

/-- Marker split of `writeWithPh`'s placeholder branch: try to match
`\[\[(ph|pc):[^\]]+\]\]` at the head; returns the marker kind, its
content and the rest. -/
def matchMarkAt (cs : List Char) : Option (Bool × List Char × List Char) :=
  let tryKind := fun (kind : List Char) (isPh : Bool) =>
    let tok := str "[[" ++ kind ++ str ":"
    if tok.isPrefixOf cs then
      let rest := cs.drop tok.length
      let content := rest.takeWhile (· ≠ ']')
      if content ≠ [] ∧ (str "]]").isPrefixOf (rest.drop content.length) then
        some (isPh, content, (rest.drop content.length).drop 2)
      else none
    else none
  match tryKind (str "ph") true with
  | some r => some r
  | none => tryKind (str "pc") false

/-- Build the nodes of one matched marker, mirroring the `mph` / `mpc`
classification: `[[ph:id]]` becomes a `ph` element, `[[pc:id:text]]`
(id up to the first colon, lazily) a `pc` element with a text child; a
`pc` marker without a second colon falls through to literal text. -/
def markNode (isPh : Bool) (content : List Char) : XNode :=
  if isPh then
    XNode.xelem (str "ph") [(str "id", content)] []
  else
    let idPart := content.takeWhile (· ≠ ':')
    let rest := content.drop idPart.length
    match rest with
    | ':' :: t => XNode.xelem (str "pc") [(str "id", idPart)] [XNode.xtext t]
    | _ => XNode.xtext (str "[[pc:" ++ content ++ str "]]")

/-- The placeholder branch of `writeWithPh`: split on
`(\[\[(ph|pc):[^\]]+\]\])` and classify every part. -/
def markSplitAux : Nat → List Char → List Char → List XNode
  | 0, pending, cs => if pending ++ cs ≠ [] then [.xtext (pending ++ cs)] else []
  | _ + 1, pending, [] => if pending ≠ [] then [.xtext pending] else []
  | fuel + 1, pending, c :: cs =>
    match matchMarkAt (c :: cs) with
    | some (isPh, content, rest) =>
      (if pending ≠ [] then [XNode.xtext pending] else []) ++
        markNode isPh content :: markSplitAux fuel [] rest
    | none => markSplitAux fuel (pending ++ [c]) cs

/-- Placeholder-branch node construction. -/
def markSplit (cs : List Char) : List XNode := markSplitAux cs.length [] cs

/-- Source `attrsStr.trim().endsWith('/')` (self-closing test). -/
def isSelfClosing (attrs : List Char) : Bool :=
  match (jsTrim attrs).reverse with
  | '/' :: _ => true
  | _ => false

mutual

/-- Function `writeWithPh` of `src/exporter/xliff.ts` (the full
function): strip NUL characters, then either parse inline XLIFF
elements with nesting-aware closing-tag search, or split on placeholder
markers.  Returns the XML nodes written under the `<source>` /
`<target>` element.  Fueled; the top-level fuel dominates the input
length. -/
def writeWithPhAux : Nat → List Char → List XNode
  | 0, cs => if cs ≠ [] then [.xtext cs] else []
  | fuel + 1, encoded =>
    let parts := encoded.filter (· ≠ Char.ofNat 0)
    if hasInlineXliff parts then inlineLoop fuel parts else markSplit parts

/-- The `while (i < parts.length)` scanning loop of the inline branch
of `writeWithPh`: text before a tag is written as text; a self-closing
tag becomes an empty element; otherwise the nesting-aware close search
delimits the children (written recursively through the full
`writeWithPh`); an unclosed tag makes the whole remainder literal
text. -/
def inlineLoop : Nat → List Char → List XNode
  | 0, cs => if cs ≠ [] then [.xtext cs] else []
  | fuel + 1, cs =>
    match findWireTag cs with
    | none => if cs ≠ [] then [.xtext cs] else []
    | some (pre, tag, attrs, rest) =>
      let preNodes := if pre ≠ [] then [XNode.xtext pre] else []
      if isSelfClosing attrs then
        preNodes ++ XNode.xelem tag (parseAttributes attrs) [] :: inlineLoop fuel rest
      else
        match findClose tag rest with
        | some closeIdx =>
          let inner := rest.take closeIdx
          let after := rest.drop (closeIdx + tag.length + 3)
          preNodes ++
            XNode.xelem tag (parseAttributes attrs) (writeWithPhAux fuel inner)
              :: inlineLoop fuel after
        | none =>
          -- unclosed: the rest from the match start is written as text
          preNodes ++ [XNode.xtext ('<' :: tag ++ attrs ++ '>' :: rest)]

end

/-- Top-level `writeWithPh`. -/
def writeWithPh (encoded : List Char) : List XNode :=
  writeWithPhAux (encoded.length + 1) encoded

/-- Sequential entity unescaping of the `flatten` `pc` branch:
`.replace(/&lt;/g,'<').replace(/&gt;/g,'>').replace(/&quot;/g,'"').replace(/&amp;/g,'&')`. -/
def decodeEntities (s : List Char) : List Char :=
  rAll (rAll (rAll (rAll s (str "&lt;") ['<']) (str "&gt;") ['>'])
    (str "&quot;") ['"']) (str "&amp;") ['&']

/-- Attribute lookup in the `attrs['@_x'] || attrs.x || ''` style: value or
empty. -/
def attrOrEmpty (attrs : List (List Char × List Char)) (name : List Char) : List Char :=
  match attrs.lookup name with
  | some v => v
  | none => []

/-- Truthy attribute lookup (`attrs.x` used as a boolean: present and
non-empty). -/
def attrTruthy (attrs : List (List Char × List Char)) (name : List Char) :
    Option (List Char) :=
  match attrs.lookup name with
  | some v => if v ≠ [] then some v else none
  | none => none

/-- Source `dataRef.replace(/^html_/, '')`. -/
def dropHtmlPfx (s : List Char) : List Char :=
  if (str "html_").isPrefixOf s then s.drop 5 else s

/-- The `ctype` to tag-name mapping of the `g` branch of `flatten`. -/
def ctypeToTag (ctype : List Char) : List Char :=
  if ctype = str "bold" then str "b"
  else if ctype = str "italic" then str "i"
  else if ctype = str "underline" then str "u"
  else if ctype = str "link" then str "a"
  else if ctype = str "code" then str "code"
  else if (str "x-").isPrefixOf ctype then ctype.drop 2
  else str "span"

mutual

/-- The recursive `flatten` of `parseXliffToUnits`
(`src/exporter/xliff.ts`, the `preserveOrder: true` version): text
nodes pass through; `ph` emits `[[ph:id]]`; `pc` restores the literal
tags carried in `equivStart`/`equivEnd` when both are present and
non-empty, otherwise reconstructs a tag from `dataRef` (default
`span`); `g` reconstructs a tag from `ctype`; `sc`/`ec`,
`bpt`/`ept` and `source`/`target` as in the source; any other element
contributes nothing. -/
def flattenNode : XNode → List Char
  | .xtext s => s
  | .xelem tag attrs children =>
    if tag = str "ph" then
      match attrTruthy attrs (str "id") with
      | some id => str "[[ph:" ++ id ++ str "]]"
      | none => []
    else if tag = str "pc" then
      let inner := flattenNodes children
      match attrTruthy attrs (str "equivStart"), attrTruthy attrs (str "equivEnd") with
      | some eqS, some eqE => decodeEntities eqS ++ inner ++ decodeEntities eqE
      | _, _ =>
        let tagName := dropHtmlPfx (attrOrEmpty attrs (str "dataRef"))
        let tagName := if tagName = [] then str "span" else tagName
        '<' :: tagName ++ '>' :: inner ++ '<' :: '/' :: tagName ++ ['>']
    else if tag = str "g" then
      let tagName := ctypeToTag (attrOrEmpty attrs (str "ctype"))
      '<' :: tagName ++ '>' :: flattenNodes children ++ '<' :: '/' :: tagName ++ ['>']
    else if tag = str "sc" ∨ tag = str "ec" then
      flattenNodes children
    else if tag = str "bpt" ∨ tag = str "ept" then
      (children.filterMap (fun n => match n with
        | XNode.xtext s => if s ≠ [] then some s else none
        | _ => none)).foldl (· ++ ·) []
    else if tag = str "source" ∨ tag = str "target" then
      flattenNodes children
    else []

/-- Source `flatten` over a node list. -/
def flattenNodes : List XNode → List Char
  | [] => []
  | n :: ns => flattenNode n ++ flattenNodes ns

end

/-!
## Markup decomposition (`htmlToXliffWithSkeleton`, `src/io/stream.ts`
lines 196–319 / `src/io/excel.ts`)

The fragment is first parsed by the external `node-html-parser`
library; `HNode` models its parse tree (text nodes with their raw text,
elements with tag name, raw attribute string and children).
-/

/-- A parsed HTML node (`node-html-parser`): text node (`nodeType 3`)
with its `rawText`, or element (`nodeType 1`) with `tagName`,
`rawAttrs` and `childNodes`. -/
inductive HNode where
  | htext (raw : List Char)
  | helem (tagName : List Char) (rawAttrs : List Char) (children : List HNode)

/-- The default inline tag set of `htmlToXliffWithSkeleton`. -/
def defaultInline : List (List Char) :=
  [str "b", str "strong", str "i", str "em", str "u", str "span",
   str "small", str "sub", str "sup", str "mark", str "a", str "code"]

/-- XLIFF version selector (`opts.xliffVersion`, default `'2.1'`). -/
inductive XliffVersion where
  | v12
  | v21
  deriving DecidableEq, Repr

/-- The `ctypeMap` of `htmlToXliffWithSkeleton` (XLIFF 1.2). -/
def ctypeMap (tag : List Char) : Option (List Char) :=
  List.lookup tag
    [(str "b", str "bold"), (str "strong", str "bold"),
     (str "i", str "italic"), (str "em", str "italic"),
     (str "u", str "underline"), (str "a", str "link"),
     (str "code", str "code"), (str "span", str "x-span"),
     (str "small", str "x-small"), (str "sub", str "x-sub"),
     (str "sup", str "x-sup"), (str "mark", str "x-mark")]

/-- Source `rawAttrs.replace(/"/g, '&quot;')`. -/
def escapeQuot (s : List Char) : List Char :=
  s.foldr (fun c acc => if c = '"' then str "&quot;" ++ acc else c :: acc) []

/-- State threaded through `processNode`: output skeleton and XLIFF
strings, the inline id counter, and the XLIFF 1.2 inline map. -/
structure PNResult where
  skel : List Char
  xlf : List Char
  ctr : Nat
  imap : List (Nat × InlineEntry)

mutual

/-- Source `processNode` of `htmlToXliffWithSkeleton`: text nodes contribute
their raw text to the XLIFF output only; inline elements take the next
id and become a `<pc>` with `equivStart`/`equivEnd` literals
(XLIFF 2.1) or a `<g>` with a `ctype` (XLIFF 1.2, recording the
original tags in the inline map); any other element is block-level —
its children's skeletons are concatenated and wrapped in the verbatim
tag, with `[[CONTENT]]` when no nested skeleton exists.  The
`isInsideBlock` flag is threaded but, as in the source, never read. -/
def processNode (v : XliffVersion) (inlineTags : List (List Char))
    (_isInsideBlock : Bool) : HNode → Nat → List (Nat × InlineEntry) → PNResult
  | .htext raw, c, m => ⟨[], raw, c, m⟩
  | .helem tagName rawAttrs children, c, m =>
    let tag := listToLower tagName
    if inlineTags.contains tag then
      let id := c
      let rawA := if rawAttrs ≠ [] then ' ' :: rawAttrs else []
      let inner := processNodes v inlineTags _isInsideBlock children (c + 1) m
      match v with
      | .v21 =>
        let equivStart := str "&lt;" ++ tag ++ escapeQuot rawA ++ str "&gt;"
        let equivEnd := str "&lt;/" ++ tag ++ str "&gt;"
        let xlf :=
          str "<pc id=\"" ++ natDigits id ++ str "\" dataRef=\"html_" ++ tag ++
          str "\" equivStart=\"" ++ equivStart ++ str "\" equivEnd=\"" ++ equivEnd ++
          str "\">" ++ inner.xlf ++ str "</pc>"
        ⟨[], xlf, inner.ctr, inner.imap⟩
      | .v12 =>
        let ct := match ctypeMap tag with
          | some ct => ct
          | none => str "x-" ++ tag
        let xlf :=
          str "<g id=\"" ++ natDigits id ++ str "\" ctype=\"" ++ ct ++ str "\">" ++
          inner.xlf ++ str "</g>"
        ⟨[], xlf, inner.ctr,
          inner.imap ++ [(id, ⟨'<' :: tag ++ rawA ++ ['>'], str "</" ++ tag ++ str ">"⟩)]⟩
    else
      let inner := processNodes v inlineTags true children c m
      if tag ≠ [] then
        let rawA := if rawAttrs ≠ [] then ' ' :: rawAttrs else []
        let innerSkeleton := if inner.skel = [] then str "[[CONTENT]]" else inner.skel
        ⟨'<' :: tag ++ rawA ++ '>' :: innerSkeleton ++ str "</" ++ tag ++ str ">",
         inner.xlf, inner.ctr, inner.imap⟩
      else
        inner

/-- Source `processNode` over a child list (the `for (const child of
node.childNodes)` accumulation). -/
def processNodes (v : XliffVersion) (inlineTags : List (List Char))
    (isInsideBlock : Bool) : List HNode → Nat → List (Nat × InlineEntry) → PNResult
  | [], c, m => ⟨[], [], c, m⟩
  | n :: ns, c, m =>
    let r1 := processNode v inlineTags isInsideBlock n c m
    let r2 := processNodes v inlineTags isInsideBlock ns r1.ctr r1.imap
    ⟨r1.skel ++ r2.skel, r1.xlf ++ r2.xlf, r2.ctr, r2.imap⟩

end

/-- Source `htmlToXliffWithSkeleton` (default inline set, no configured extra
tags): runs `processNode` over the root's children with the id counter
starting at 1; the inline map is only returned for XLIFF 1.2 and only
when non-empty. -/
def htmlToXliffWithSkeleton (v : XliffVersion) (nodes : List HNode) :
    List Char × List Char × Option (List (Nat × InlineEntry)) :=
  let r := processNodes v defaultInline false nodes 1 []
  (r.skel, r.xlf, if v = .v12 ∧ r.imap ≠ [] then some r.imap else none)

mutual

/-- The original serialized fragment a parse tree came from:
`<tag rawAttrs>children</tag>` for elements, raw text for text nodes.
Used to state round-trip properties (the concrete trees in the theorems
are `node-html-parser`'s output on exactly these fragments). -/
def htmlOfNode : HNode → List Char
  | .htext raw => raw
  | .helem tagName rawAttrs children =>
    let rawA := if rawAttrs ≠ [] then ' ' :: rawAttrs else []
    '<' :: tagName ++ rawA ++ '>' :: htmlOfNodes children ++
      str "</" ++ tagName ++ str ">"

/-- Serialization of a node list. -/
def htmlOfNodes : List HNode → List Char
  | [] => []
  | n :: ns => htmlOfNode n ++ htmlOfNodes ns

end

/-!
## ICU / placeholder protection (`encodePlaceholders`,
`src/exporter/xliff.ts` lines 15–38)

The ICU detector is the global regex
`\{[^{}]*,\s*(plural|select)\s*,[\s\S]*?\}`; inside each match the
inner global regex `\{([^{}]*)\}` masks every brace-free group as
`[[pc:icuN:text]]` (with `]` stripped from the text).
-/

/-- Does `,\s*(plural|select)\s*,` match at the head of the input?
(the part of the ICU regex after the `[^{}]*` run). -/
def icuSeqOk (rest : List Char) : Bool :=
  match rest with
  | ',' :: r1 =>
    let r2 := r1.dropWhile jsIsWs
    let r3 :=
      if (str "plural").isPrefixOf r2 then some (r2.drop 6)
      else if (str "select").isPrefixOf r2 then some (r2.drop 6)
      else none
    match r3 with
    | some r4 =>
      match r4.dropWhile jsIsWs with
      | ',' :: _ => true
      | _ => false
    | none => false
  | _ => false

/-- Match the ICU block regex at the head of the input: an opening
brace, a brace-free run that can be split so that
`,\s*(plural|select)\s*,` follows (the backtracking of the greedy
`[^{}]*`), then — lazily — everything up to the first closing brace.
Returns the length of the match.  The split point does not affect the
match end: the first `}` after the brace-free run is the lazy
terminator for every split. -/
def icuBlockMatch (cs : List Char) : Option Nat :=
  match cs with
  | c :: rest =>
    if c = lbrace then
      let run := rest.takeWhile (fun d => d ≠ lbrace ∧ d ≠ rbrace)
      if (List.range (run.length + 1)).any
          (fun j => icuSeqOk (rest.drop j)) then
        match firstOcc [rbrace] rest with
        | some k => some (k + 2)
        | none => none
      else none
    else none
  | [] => none

/-- The inner leaf-masking replace `\{([^{}]*)\}` over a matched ICU
block: every brace-free group becomes `[[pc:icuN:text]]`, with `]`
characters removed from the text; the counter is threaded globally. -/
def icuLeafMaskAux : Nat → Nat → List Char → Nat × List Char
  | 0, icuIdx, cs => (icuIdx, cs)
  | _ + 1, icuIdx, [] => (icuIdx, [])
  | fuel + 1, icuIdx, c :: cs =>
    if c = lbrace then
      let grp := cs.takeWhile (fun d => d ≠ lbrace ∧ d ≠ rbrace)
      match cs.drop grp.length with
      | d :: rest2 =>
        if d = rbrace then
          let r := icuLeafMaskAux fuel (icuIdx + 1) rest2
          (r.1, str "[[pc:icu" ++ natDigits icuIdx ++ str ":" ++
            grp.filter (· ≠ ']') ++ str "]]" ++ r.2)
        else
          let r := icuLeafMaskAux fuel icuIdx cs
          (r.1, c :: r.2)
      | [] =>
        let r := icuLeafMaskAux fuel icuIdx cs
        (r.1, c :: r.2)
    else
      let r := icuLeafMaskAux fuel icuIdx cs
      (r.1, c :: r.2)

/-- Leaf masking over one ICU block match. -/
def icuLeafMask (icuIdx : Nat) (m : List Char) : Nat × List Char :=
  icuLeafMaskAux m.length icuIdx m

/-- The global ICU replace of `encodePlaceholders`: scan left to right;
at each position try the ICU block regex; on a match, mask its leaves
and continue after it. -/
def icuEncodeAux : Nat → Nat → List Char → List Char
  | 0, _, cs => cs
  | _ + 1, _, [] => []
  | fuel + 1, icuIdx, c :: cs =>
    match icuBlockMatch (c :: cs) with
    | some len =>
      let r := icuLeafMask icuIdx ((c :: cs).take len)
      r.2 ++ icuEncodeAux fuel r.1 ((c :: cs).drop len)
    | none => c :: icuEncodeAux fuel icuIdx cs

/-- The ICU protection pass (counter starting at `icu1`). -/
def icuEncode (text : List Char) : List Char :=
  icuEncodeAux text.length 1 text

/-- An inline-code pattern (`inlineCodeRegexes` entry), embedded as a
function giving the earliest match in a text: the text before the
match, the match itself (non-empty) and the text after. -/
def InlinePattern := List Char → Option (List Char × List Char × List Char)

/-- Global replace of one inline-code pattern, assigning `[[ph:phN]]`
tokens and recording originals, as the `for (const re of regs)` loop
body of `encodePlaceholders`. -/
def applyPatternAux (p : InlinePattern) :
    Nat → Nat → List (List Char × List Char) → List Char →
    List Char × Nat × List (List Char × List Char)
  | 0, phIndex, phm, cs => (cs, phIndex, phm)
  | fuel + 1, phIndex, phm, cs =>
    match p cs with
    | some (pre, m, post) =>
      let id := str "ph" ++ natDigits phIndex
      let r := applyPatternAux p fuel (phIndex + 1) (phm ++ [(id, m)]) post
      (pre ++ str "[[ph:" ++ id ++ str "]]" ++ r.1, r.2.1, r.2.2)
    | none => (cs, phIndex, phm)

/-- Source `encodePlaceholders` of `src/exporter/xliff.ts`: ICU protection
first, then each configured inline-code pattern in order; returns the
encoded text and the token map (ICU `pc` tokens are not recorded in the
map). -/
def encodePlaceholders (text : List Char) (regs : List InlinePattern) :
    List Char × List (List Char × List Char) :=
  let encoded := icuEncode text
  let r := regs.foldl
    (fun (acc : List Char × Nat × List (List Char × List Char)) p =>
      applyPatternAux p (acc.1.length + 1) acc.2.1 acc.2.2 acc.1)
    (encoded, 1, [])
  (r.1, r.2.2)

/-!
## End-to-end pipelines

`extractUnits` (HTML branch, `src/io/stream.ts` lines 527–551) stores
`htmlToXliffWithSkeleton`'s skeleton in the unit metadata and makes the
XLIFF source the unit's (single-segment) text; `exportToXliff` writes
it via `writeWithPh`; `parseXliffToUnits` flattens it back;
`mergeWorkbook` resolves the segments and applies
`composeHtmlFromSkeleton` when a skeleton note is present
(`parseXliffToUnits` only keeps a non-empty skeleton note).
-/

/-- One segment's wire round trip: what `parseXliffToUnits` recovers
from what `writeWithPh` wrote. -/
def wireRoundtrip (s : List Char) : List Char := flattenNodes (writeWithPh s)

/-- The full HTML round trip with no translator edits
(`target = source` for the unit's single segment): decomposition via
`htmlToXliffWithSkeleton` (XLIFF 2.1, the default), export/parse-back
of the segment, merge via the segment loop and
`composeHtmlFromSkeleton`. -/
def pipelineMerged (nodes : List HNode) : List Char :=
  let r := htmlToXliffWithSkeleton .v21 nodes
  let parsedSrc := wireRoundtrip (encodePlaceholders r.2.1 []).1
  let uSk := if r.1 = [] then none else some r.1
  (mergeUnitR parsedSrc .source noPh none uSk
    [⟨str "s0", parsedSrc, some parsedSrc, none, none, none⟩]).text

/-- The plain-text pipeline for an ICU source (no inline-code patterns
configured, no HTML): protection via `encodePlaceholders`, export via
`writeWithPh`, parse-back via `flatten`, merge with an untranslated
(empty) target under the default `source` fallback. -/
def icuPipeline (text : List Char) : List Char :=
  let encoded := (encodePlaceholders text []).1
  let parsedSrc := wireRoundtrip encoded
  (mergeUnitR parsedSrc .source noPh none none
    [⟨str "s0", parsedSrc, some [], none, none, none⟩]).text

/-- Substring test (`String.prototype.includes`). -/
def containsSub (hay needle : List Char) : Bool :=
  (firstOcc needle hay).isSome

/-!
## Specification-side definitions

These follow the words of the specification (not the code) and are
compared with the source-derived definitions in the theorems.
-/

/-- The merge-fallback resolution as the specification words it: the
segment's target when present and non-empty; otherwise the segment's
source text under policy `source` (the default), and the empty string
under policy `empty`. -/
def effectiveTextSpec (policy : MergeFallback) (target : Option (List Char))
    (source : List Char) : List Char :=
  match target with
  | some t =>
    if t ≠ [] then t
    else match policy with | .source => source | .empty => []
  | none => match policy with | .source => source | .empty => []

/-- Every segment's original source substring is located in the unit
source at or after the last consumed position (and is non-empty, so the
merge loop actually searches for it). -/
def allLocated (src : List Char) : List Seg → Nat → Bool
  | [], _ => true
  | seg :: rest, e =>
    decide (seg.source ≠ []) &&
    match indexOfFrom src seg.source e with
    | some p => allLocated src rest (p + seg.source.length)
    | none => false

/-- Gap-recovery reassembly as the specification words it: for each
segment, locate its source at or after the last consumed position;
reinsert the literal text between the previous segment's end and this
segment's start verbatim before the segment's resolved text, defaulting
to a single space when that gap is empty but a previous segment
existed; after the last segment, append the trailing text verbatim. -/
def mergeGapSpec (src : List Char) (policy : MergeFallback) :
    List Seg → Nat → Bool → List Char
  | [], e, _ => src.drop e
  | seg :: rest, e, prevExists =>
    match indexOfFrom src seg.source e with
    | some p =>
      let between := jsSlice src e p
      let gap :=
        if between ≠ [] then between
        else if prevExists then [' '] else []
      gap ++ effectiveTextSpec policy seg.target seg.source ++
        mergeGapSpec src policy rest (p + seg.source.length) true
    | none => []

/-!
## Concrete inputs used by the theorems

The `parse…` trees below are the `node-html-parser` parse trees of the
quoted fragments (the library is lenient: the unterminated
`<div>Unclosed div` parses, without throwing, to a `div` element —
closed at end of input — containing the text node).
-/

/-- Parse tree of `"<p>Hello</p>"`. -/
def parseP : List HNode := [.helem (str "p") [] [.htext (str "Hello")]]

/-- Parse tree of `"<a href=\"/shop\" class=\"link\">text</a>"`. -/
def parseAnchor : List HNode :=
  [.helem (str "a") (str "href=\"/shop\" class=\"link\"") [.htext (str "text")]]

/-- Parse tree of the unterminated fragment `"<div>Unclosed div"`. -/
def parseUnclosedDiv : List HNode :=
  [.helem (str "div") [] [.htext (str "Unclosed div")]]

/-- Parse tree of the nested inline fragment
`"x<b>c<i>d</i>e</b>f"` (inline tags only). -/
def parseNested : List HNode :=
  [.htext (str "x"),
   .helem (str "b") []
     [.htext (str "c"), .helem (str "i") [] [.htext (str "d")], .htext (str "e")],
   .htext (str "f")]

/-- The ICU source text of claim C4:
`{count, plural, one {1 file} other {# files}}`. -/
def icuSource : List Char :=
  str "\x7bcount, plural, one \x7b1 file\x7d other \x7b# files\x7d\x7d"

/-- Segments of claim C5's example: the segmentation of `"A. B. C."`
with only the middle segment translated (to `"X"`). -/
def c5segs : List Seg :=
  [⟨str "s0", str "A.", none, some 0, some 2, none⟩,
   ⟨str "s1", str "B.", some (str "X"), some 3, some 5, none⟩,
   ⟨str "s2", str "C.", none, some 6, some 8, none⟩]

/-!
## Helper lemmas
-/

/-- Folding list append from an accumulator splits off the accumulator. -/
theorem foldl_append_eq (l : List (List Char)) (a : List Char) :
    l.foldl (· ++ ·) a = a ++ l.foldl (· ++ ·) [] := by
  induction l generalizing a with
  | nil => simp
  | cons x xs ih =>
    simp only [List.foldl_cons, List.nil_append]
    rw [ih (a ++ x), ih x, List.append_assoc]

/-- A non-empty list occurs in itself at index 0. -/
theorem firstOcc_self (l : List Char) (h : l ≠ []) : firstOcc l l = some 0 := by
  cases l with
  | nil => exact absurd rfl h
  | cons c cs => simp [firstOcc, List.isPrefixOf_iff_prefix]

/-- With no placeholder map entries, placeholder restoration is the
identity. -/
theorem phApply_noPh (s : Seg) (x : List Char) : phApply noPh s x = x := rfl

/-- The merge segment loop realises the specification's gap-recovery
description whenever every segment is located: induction invariant for
the C5 theorem (`prevExists` tracks `0 < pos`). -/
theorem mergeLoop_gapSpec (src : List Char) (policy : MergeFallback) :
    ∀ (segs : List Seg) (pos : Nat),
      allLocated src segs pos = true →
      segs.all (fun s => s.metaSkeleton.isNone) = true →
      (mergeSegLoop src policy noPh none segs pos).foldl (· ++ ·) [] =
        mergeGapSpec src policy segs pos (decide (0 < pos)) := by
  intro segs
  induction segs with
  | nil =>
    intro pos _ _
    simp [mergeSegLoop, mergeGapSpec]
  | cons seg rest ih =>
    intro pos hloc hsk
    unfold allLocated at hloc
    rw [Bool.and_eq_true] at hloc
    obtain ⟨h1, h2⟩ := hloc
    have hsrc : seg.source ≠ [] := of_decide_eq_true h1
    cases hio : indexOfFrom src seg.source pos with
    | none => rw [hio] at h2; simp at h2
    | some p =>
      rw [hio] at h2
      rw [List.all_cons, Bool.and_eq_true] at hsk
      obtain ⟨hsk1, hsk2⟩ := hsk
      have hskn : seg.metaSkeleton = none := Option.isNone_iff_eq_none.mp hsk1
      have hlen : 0 < seg.source.length := List.length_pos.mpr hsrc
      unfold mergeSegLoop
      simp only [if_pos hsrc, hio]
      unfold mergeGapSpec
      rw [hio]
      simp only [List.foldl_cons, List.nil_append]
      rw [foldl_append_eq]
      rw [ih (p + seg.source.length) h2 hsk2]
      rw [phApply_noPh]
      rw [hskn]
      have hp : decide (0 < p + seg.source.length) = true := by
        simp; omega
      rw [hp]
      have hchosen : chosenText policy seg
          = effectiveTextSpec policy seg.target seg.source := by
        unfold chosenText effectiveTextSpec
        rfl
      unfold legacyBody
      rw [hchosen]
      simp [List.append_assoc]

/-- Fuel does not matter for `colIndexToLetterAux` once it dominates the
input. -/
theorem colLetterAux_fuel_irrel : ∀ fuel fuel' n, n ≤ fuel → n ≤ fuel' →
    colIndexToLetterAux fuel n = colIndexToLetterAux fuel' n := by
  intro fuel
  induction fuel with
  | zero => intro fuel' n h1 _; interval_cases n; cases fuel' <;> rfl
  | succ f ih =>
    intro fuel' n h1 h2
    match n, fuel' with
    | 0, 0 => rfl
    | 0, _ + 1 => rfl
    | n + 1, f' + 1 =>
      have hd : n / 26 ≤ n := Nat.div_le_self n 26
      simp only [colIndexToLetterAux]
      rw [ih f' (n / 26) (by omega) (by omega)]

/-- Every code produced by `colIndexToLetterAux` is an uppercase
letter. -/
theorem colLetterAux_upper : ∀ fuel n c, c ∈ colIndexToLetterAux fuel n →
    65 ≤ c ∧ c ≤ 90 := by
  intro fuel
  induction fuel with
  | zero => intro n c h; simp [colIndexToLetterAux] at h
  | succ f ih =>
    intro n c h
    match n with
    | 0 => simp [colIndexToLetterAux] at h
    | n + 1 =>
      simp only [colIndexToLetterAux, List.mem_append, List.mem_singleton] at h
      rcases h with h | h
      · exact ih _ _ h
      · have := Nat.mod_lt n (show 0 < 26 by omega)
        omega

/-- The letter-to-index loop distributes over append when no code
breaks the scan. -/
theorem toIndexAux_append (a : Nat) (xs ys : List Nat)
    (h : ∀ c ∈ xs, 65 ≤ upperCode c ∧ upperCode c ≤ 90) :
    colLetterToIndexAux a (xs ++ ys)
      = colLetterToIndexAux (colLetterToIndexAux a xs) ys := by
  induction xs generalizing a with
  | nil => rfl
  | cons c cs ih =>
    have hc := h c (List.mem_cons_self c cs)
    simp only [List.cons_append, colLetterToIndexAux]
    rw [if_neg (by omega), if_neg (by omega)]
    exact ih _ (fun d hd => h d (List.mem_cons_of_mem c hd))

/-- Reading back the letters of `n` recovers `n` (scaled by the
accumulator). -/
theorem toIndexAux_inv : ∀ fuel n a, n ≤ fuel →
    colLetterToIndexAux a (colIndexToLetterAux fuel n)
      = a * 26 ^ (colIndexToLetterAux fuel n).length + n := by
  intro fuel
  induction fuel with
  | zero =>
    intro n a h
    interval_cases n
    simp [colIndexToLetterAux, colLetterToIndexAux]
  | succ f ih =>
    intro n a h
    match n with
    | 0 => simp [colIndexToLetterAux, colLetterToIndexAux]
    | n + 1 =>
      simp only [colIndexToLetterAux]
      rw [toIndexAux_append _ _ _ (by
        intro c hc
        have hcc := colLetterAux_upper f (n / 26) c hc
        have : upperCode c = c := by unfold upperCode; rw [if_neg (by omega)]
        omega)]
      rw [ih (n / 26) a (by have := Nat.div_le_self n 26; omega)]
      have hm : Nat.mod n 26 < 26 := Nat.mod_lt n (by omega)
      simp only [colLetterToIndexAux]
      rw [show upperCode (65 + n % 26) = 65 + n % 26 by
        unfold upperCode; rw [if_neg (by omega)]]
      rw [if_neg (by omega)]
      simp only [colLetterToIndexAux, List.length_append, List.length_singleton]
      have hdm := Nat.div_add_mod n 26
      rw [pow_succ]
      ring_nf
      omega

/-- Appending one letter multiplies the index by 26 and adds the
letter's value. -/
theorem toIndex_snoc (s : List Nat) (c : Nat)
    (h : ∀ d ∈ s, isLetterCode d = true) (hc : isLetterCode c = true) :
    colLetterToIndex (s ++ [c]) = colLetterToIndex s * 26 + (upperCode c - 64) := by
  unfold colLetterToIndex
  rw [toIndexAux_append _ _ _ (by
    intro d hd
    have := h d hd
    unfold isLetterCode at this
    unfold upperCode
    by_cases h97 : 97 ≤ d ∧ d ≤ 122
    · rw [if_pos h97]; simp at this; omega
    · rw [if_neg h97]; simp at this; omega)]
  simp only [colLetterToIndexAux]
  unfold isLetterCode at hc
  have hu : 65 ≤ upperCode c ∧ upperCode c ≤ 90 := by
    unfold upperCode
    by_cases h97 : 97 ≤ c ∧ c ≤ 122
    · rw [if_pos h97]; simp at hc; omega
    · rw [if_neg h97]; simp at hc; omega
  rw [if_neg (by omega)]

/-- Index-to-letter inverts letter-to-index on letter strings. -/
theorem toLetter_toIndex (s : List Nat) (h : ∀ d ∈ s, isLetterCode d = true) :
    colIndexToLetter (colLetterToIndex s) = s.map upperCode := by
  induction s using List.reverseRecOn with
  | nil => rfl
  | append_singleton s c ih =>
    have hs : ∀ d ∈ s, isLetterCode d = true := fun d hd => h d (by simp [hd])
    have hc : isLetterCode c = true := h c (by simp)
    rw [toIndex_snoc s c hs hc]
    have hu : 65 ≤ upperCode c ∧ upperCode c ≤ 90 := by
      unfold isLetterCode at hc
      unfold upperCode
      by_cases h97 : 97 ≤ c ∧ c ≤ 122
      · rw [if_pos h97]; simp at hc; omega
      · rw [if_neg h97]; simp at hc; omega
    set A := colLetterToIndex s with hA
    set d := upperCode c - 64 with hd
    have hd1 : 1 ≤ d ∧ d ≤ 26 := by omega
    have hN : A * 26 + d = (A * 26 + d - 1) + 1 := by omega
    unfold colIndexToLetter
    rw [hN]
    simp only [colIndexToLetterAux]
    have hdiv : (A * 26 + d - 1) / 26 = A := by
      have : A * 26 + d - 1 = A * 26 + (d - 1) := by omega
      rw [this, Nat.mul_comm, Nat.mul_add_div (by omega), Nat.div_eq_of_lt (by omega)]
      omega
    have hmod : (A * 26 + d - 1) % 26 = d - 1 := by
      have : A * 26 + d - 1 = A * 26 + (d - 1) := by omega
      rw [this, Nat.mul_comm, Nat.mul_add_mod, Nat.mod_eq_of_lt (by omega)]
    rw [hdiv, hmod]
    rw [colLetterAux_fuel_irrel (A * 26 + d - 1) A A (by omega) (le_refl A)]
    unfold colIndexToLetter at ih
    rw [ih hs]
    simp
    omega

/-!
## Claim theorems
-/

/-- C1: the claimed round-trip identity (decompose with
`htmlToXliffWithSkeleton`, keep `target = source`, reassemble via
`composeHtmlFromSkeleton`) fails as soon as the fragment contains a
block-level tag.  At the failing input `"<p>Hello</p>"` the pipeline
returns `"<p>[[CONTENT]]</p>Hello"`: `composeHtmlFromSkeleton` never
substitutes the `[[CONTENT]]` placeholder that
`htmlToXliffWithSkeleton` puts into block skeletons (it only handles
`[[htmltxt:N]]` markers), so the placeholder is emitted literally and
the content is appended after the block structure.  For inline-only
fragments (the nested `"x<b>c<i>d</i>e</b>f"`) the round trip is
byte-exact, isolating the defect to block-level skeletons. -/
theorem c1_block_roundtrip_bug :
    pipelineMerged parseP = str "<p>[[CONTENT]]</p>Hello" ∧
    htmlOfNodes parseP = str "<p>Hello</p>" ∧
    pipelineMerged parseP ≠ htmlOfNodes parseP ∧
    pipelineMerged parseNested = htmlOfNodes parseNested := by
  refine ⟨by decide, by decide, by decide, by decide⟩

/-- C2: encoding the span `<a href="/shop" class="link">text</a>` in the
attribute-preserving dialect (XLIFF 2.1 `<pc>` carrying the escaped
literal opening and closing tags as `equivStart`/`equivEnd`) and
decoding the result returns the exact original opening tag string —
attribute order and quoting included — with no side map (`inlineMap` is
`none` for 2.1); the decode reads the carried literals back verbatim
after un-escaping, and the whole fragment round-trips byte-for-byte. -/
theorem c2_dialectB_attribute_fidelity :
    (htmlToXliffWithSkeleton .v21 parseAnchor).2.2 = none ∧
    (htmlToXliffWithSkeleton .v21 parseAnchor).2.1 =
      str "<pc id=\"1\" dataRef=\"html_a\" equivStart=\"&lt;a href=&quot;/shop&quot; class=&quot;link&quot;&gt;\" equivEnd=\"&lt;/a&gt;\">text</pc>" ∧
    wireRoundtrip (htmlToXliffWithSkeleton .v21 parseAnchor).2.1 =
      str "<a href=\"/shop\" class=\"link\">text</a>" ∧
    (str "<a href=\"/shop\" class=\"link\">").isPrefixOf
      (wireRoundtrip (htmlToXliffWithSkeleton .v21 parseAnchor).2.1) = true ∧
    pipelineMerged parseAnchor = htmlOfNodes parseAnchor := by
  refine ⟨by decide, by decide, by decide, by decide, by decide⟩

/-- C3 counterexample: for the unterminated fragment
`"<div>Unclosed div"` the claim asserts that the skeleton equals the
whole literal string and that reassembly with no edits returns the
original string; both equalities are false on the code (the lenient
HTML parser auto-closes the element, and the `[[CONTENT]]` placeholder
is never substituted back). -/
theorem c3_malformed_counterexample :
    ¬((htmlToXliffWithSkeleton .v21 parseUnclosedDiv).1 = str "<div>Unclosed div" ∧
      pipelineMerged parseUnclosedDiv = str "<div>Unclosed div") := by
  decide

/-- C3 (amended): decomposing `"<div>Unclosed div"` never throws — the
lenient parser recovers by closing the element at end of input — and a
skeleton and flat text are still produced, but the fragment is not kept
opaque: the skeleton is `"<div>[[CONTENT]]</div>"`, the flat text is
`"Unclosed div"`, and reassembling with no translator edits returns
`"<div>[[CONTENT]]</div>Unclosed div"`, not the original string. -/
theorem c3_malformed_amended :
    (htmlToXliffWithSkeleton .v21 parseUnclosedDiv).1 = str "<div>[[CONTENT]]</div>" ∧
    (htmlToXliffWithSkeleton .v21 parseUnclosedDiv).2.1 = str "Unclosed div" ∧
    pipelineMerged parseUnclosedDiv = str "<div>[[CONTENT]]</div>Unclosed div" := by
  refine ⟨by decide, by decide, by decide⟩

/-- C4: for `{count, plural, one {1 file} other {# files}}`, protection
masks only nested leaf expressions — the encoded text keeps the
keywords `plural`, `one`, `other` literal (the lazy ICU regex masks the
first leaf `{1 file}` as `[[pc:icu1:1 file]]` and leaves `{# files}`
untouched) — and after export, parse-back and merge with unchanged
keywords and untranslated targets the output still contains the literal
keywords `plural`, `one` and `other` and the original leaf content
`1 file` and `# files` (the masked leaf comes back as
`<span>1 file</span>` via the parse-back fallback). -/
theorem c4_icu_category_preservation :
    (encodePlaceholders icuSource []).1 =
      str "\x7bcount, plural, one [[pc:icu1:1 file]] other \x7b# files\x7d\x7d" ∧
    (encodePlaceholders icuSource []).2 = [] ∧
    icuPipeline icuSource =
      str "\x7bcount, plural, one <span>1 file</span> other \x7b# files\x7d\x7d" ∧
    containsSub (icuPipeline icuSource) (str "plural") = true ∧
    containsSub (icuPipeline icuSource) (str "one") = true ∧
    containsSub (icuPipeline icuSource) (str "other") = true ∧
    containsSub (icuPipeline icuSource) (str "1 file") = true ∧
    containsSub (icuPipeline icuSource) (str "# files") = true := by
  refine ⟨by decide, by decide, by decide, by decide, by decide, by decide,
    by decide, by decide⟩

/-- C5: whenever every segment's original source substring is located
in the unit source at or after the last consumed position, the merge
reinserts the literal text between the previous segment's end and this
segment's start verbatim before the segment's resolved text, inserts a
single space instead when that gap is empty but a previous segment was
consumed, and appends the trailing text after the last segment
verbatim: the source merge loop equals the specification's gap-recovery
description. -/
theorem c5_gap_recovery (src : List Char) (policy : MergeFallback)
    (segs : List Seg)
    (hloc : allLocated src segs 0 = true)
    (hsk : segs.all (fun s => s.metaSkeleton.isNone) = true) :
    (mergeUnitR src policy noPh none none segs).text =
      mergeGapSpec src policy segs 0 false := by
  unfold mergeUnitR
  cases segs with
  | nil => simp [mergeGapSpec]
  | cons s ss =>
    simp only [ne_eq, List.cons_ne_nil, not_false_eq_true, ite_true, reduceIte]
    have h := mergeLoop_gapSpec src policy (s :: ss) 0 hloc hsk
    simpa using h

/-- Witness for C5 at the claim's example: segmenting `"A. B. C."`
yields `A.`/`B.`/`C.`, and merging with only the middle segment
translated preserves the literal spacing: the output is `"A. X C."`. -/
theorem c5_gap_recovery_witness :
    segmentTextByRules (str "A. B. C.") (builtinRulesFor (str "en")) =
      [⟨str "s0", str "A.", none, some 0, some 2, none⟩,
       ⟨str "s1", str "B.", none, some 3, some 5, none⟩,
       ⟨str "s2", str "C.", none, some 6, some 8, none⟩] ∧
    allLocated (str "A. B. C.") c5segs 0 = true ∧
    (mergeUnitR (str "A. B. C.") .source noPh none none c5segs).text =
      mergeGapSpec (str "A. B. C.") .source c5segs 0 false ∧
    (mergeUnitR (str "A. B. C.") .source noPh none none c5segs).text =
      str "A. X C." :=
  ⟨by decide, by decide,
   c5_gap_recovery (str "A. B. C.") .source c5segs (by decide) (by decide),
   by decide⟩

/-- C6: during merge the effective text of a segment is its target when
that target is present and non-empty; otherwise its source text under
the merge-fallback policy `source` (the default), and the empty string
under the policy `empty` — proved against the merge engine on a
single-segment unit for every source, target and policy. -/
theorem c6_merge_fallback_policy (src : List Char) (t : Option (List Char))
    (policy : MergeFallback) :
    (mergeUnitR src policy noPh none none
        [⟨str "s0", src, t, none, none, none⟩]).text =
      effectiveTextSpec policy t src := by
  unfold mergeUnitR
  by_cases hs : src = []
  · subst hs
    simp [mergeSegLoop, legacyBody, phApply_noPh, chosenText, effectiveTextSpec]
  · have hio : indexOfFrom src src 0 = some 0 := by
      unfold indexOfFrom
      rw [List.drop_zero, firstOcc_self src hs]
      rfl
    simp [mergeSegLoop, hs, hio, jsSlice, legacyBody, phApply_noPh, List.drop_length,
      chosenText, effectiveTextSpec]

/-- C7 counterexample: at a concrete unit whose only segment's source
(`"Bye"`) cannot be located in the unit source (`"Hello"`), the merge
engine appends the resolved text without gap recovery (also appending
the unconsumed source as trailing text) but emits no finding at all:
the merge loop has no finding channel, so the claim's "emits a
structural finding attached to the unit" is false. -/
theorem c7_structural_finding_counterexample :
    (mergeUnitR (str "Hello") .source noPh none none
      [⟨str "s0", str "Bye", some (str "Salut"), none, none, none⟩]).text =
        str "SalutHello" ∧
    (mergeUnitR (str "Hello") .source noPh none none
      [⟨str "s0", str "Bye", some (str "Salut"), none, none, none⟩]).findings = [] := by
  exact ⟨by decide, rfl⟩

/-- C7 (amended): if a segment's original source substring cannot be
located in the unit's source text, the merge never throws and does not
abort the unit — it contributes exactly the segment's resolved text, in
original segment order, without gap recovery and without advancing the
consumed position — but no structural finding is emitted (the merge
engine records none). -/
theorem c7_unlocatable_append (src : List Char) (policy : MergeFallback)
    (seg : Seg) (rest : List Seg)
    (hfind : indexOfFrom src seg.source 0 = none ∨ seg.source = [])
    (hsk : seg.metaSkeleton = none) :
    (mergeUnitR src policy noPh none none (seg :: rest)).text =
      effectiveTextSpec policy seg.target seg.source ++
        (mergeUnitR src policy noPh none none rest).text ∧
    (mergeUnitR src policy noPh none none (seg :: rest)).findings = [] := by
  refine ⟨?_, rfl⟩
  have hfound : (if seg.source ≠ [] then indexOfFrom src seg.source 0 else none)
      = none := by
    rcases hfind with h | h
    · by_cases hs : seg.source = []
      · simp [hs]
      · simp [hs, h]
    · simp [h]
  have hchosen : chosenText policy seg
      = effectiveTextSpec policy seg.target seg.source := rfl
  have hloop : mergeSegLoop src policy noPh none (seg :: rest) 0 =
      effectiveTextSpec policy seg.target seg.source
        :: mergeSegLoop src policy noPh none rest 0 := by
    simp only [mergeSegLoop]
    rw [hfound, hsk]
    simp only [legacyBody, phApply_noPh, hchosen, List.nil_append]
  unfold mergeUnitR
  cases rest with
  | nil =>
    simp only [ne_eq, List.cons_ne_nil, not_false_eq_true, ite_true, ite_false,
      reduceIte]
    rw [hloop]
    simp [mergeSegLoop, List.foldl]
  | cons r rs =>
    simp only [ne_eq, List.cons_ne_nil, not_false_eq_true, ite_true, reduceIte]
    rw [hloop]
    simp only [List.foldl_cons, List.nil_append]
    rw [foldl_append_eq]

/-- Witness for C7 (amended) at the concrete unlocatable input. -/
theorem c7_unlocatable_append_witness :
    (mergeUnitR (str "Hello") .source noPh none none
        [⟨str "s1", str "Bye", some (str "Salut"), none, none, none⟩]).text =
      effectiveTextSpec .source (some (str "Salut")) (str "Bye") ++
        (mergeUnitR (str "Hello") .source noPh none none []).text :=
  (c7_unlocatable_append (str "Hello") .source
    ⟨str "s1", str "Bye", some (str "Salut"), none, none, none⟩ []
    (Or.inl (by decide)) rfl).1

/-- C8: segmenting `"Hello world. How are you?"` with the built-in
English rule set yields exactly two segments, `"Hello world."` (offsets
0–12) and `"How are you?"` (offsets 13–25); segmentation in this
embedding is a pure function of text and rule set, so repeating the
call is definitionally byte-identical. -/
theorem c8_segmentation_determinism :
    segmentTextByRules (str "Hello world. How are you?") (builtinRulesFor (str "en")) =
      [⟨str "s0", str "Hello world.", none, some 0, some 12, none⟩,
       ⟨str "s1", str "How are you?", none, some 13, some 25, none⟩] := by
  decide

/-- C9: evaluation at the failing input `"Dr. Smith went home."`.  The
abbreviation matcher does match `"Dr."`, but the built-in rule list
places the break rule before the no-break abbreviation rule and the
first matching rule decides, so the boundary after `"Dr."` still
breaks: the code segments the text into `"Dr."` and
`"Smith went home."`, contrary to the claimed suppression (and to the
source's own comment "avoiding common abbreviations"). -/
theorem c9_abbreviation_break_bug :
    builtinAbbrevBefore (str "Dr.") = true ∧
    boundaryDecision (builtinRulesFor (str "en")) (str "Dr.")
      (str " Smith went home.") = some true ∧
    segmentTextByRules (str "Dr. Smith went home.") (builtinRulesFor (str "en")) =
      [⟨str "s0", str "Dr.", none, some 0, some 3, none⟩,
       ⟨str "s1", str "Smith went home.", none, some 4, some 20, none⟩] := by
  refine ⟨by decide, by decide, by decide⟩

/-- C10: the column coordinate conversions are mutual inverses — for
every `n ≥ 1`, `colLetterToIndex (colIndexToLetter n) = n`, and for
every non-empty string of ASCII letters,
`colIndexToLetter (colLetterToIndex s)` is `s` uppercased. -/
theorem c10_column_conversion_inverses :
    (∀ n : Nat, 1 ≤ n → colLetterToIndex (colIndexToLetter n) = n) ∧
    (∀ s : List Nat, s ≠ [] → (∀ d ∈ s, isLetterCode d = true) →
      colIndexToLetter (colLetterToIndex s) = s.map upperCode) := by
  constructor
  · intro n _
    unfold colLetterToIndex colIndexToLetter
    rw [toIndexAux_inv n n 0 (le_refl n)]
    omega
  · intro s _ h
    exact toLetter_toIndex s h

/-- Witness for C10: both directions at concrete inputs
(`703 = "AAA"`, `"ab" ↦ 28 ↦ "AB"`). -/
theorem c10_column_conversion_inverses_witness :
    colLetterToIndex (colIndexToLetter 703) = 703 ∧
    colIndexToLetter (colLetterToIndex [97, 98]) = [65, 66] :=
  ⟨c10_column_conversion_inverses.1 703 (by decide),
   by
    have h := c10_column_conversion_inverses.2 [97, 98] (by decide) (by decide)
    rw [h]
    decide⟩

end ExcelL10n
